import Mathlib

/-!
# Verification of the chunkify chunk tracker and merger

Shallow embedding of `src/chunk/impl.rs` (the `ChunkStrategy` type, its
constructor `new`, and the `HandleStrategy` methods `save_chunk` and
`merge_chunks`).

Modelling choices:

* The filesystem is an association list from path strings to byte lists
  (`Fs`).  `async_write_to_file` always succeeds (it overwrites the entry);
  `async_read_from_file` fails exactly when the path is absent, which is the
  one read-failure mode expressible in this state model.  Consequently the
  `CreateDirectory`, `WriteChunk`, `CreateOutputFile` and `WriteOutput`
  error paths, which arise only from OS-level I/O failures, are not
  reachable in the model; `ReadChunk` and all bookkeeping errors are.
* `fs::remove_file`, whose result the source discards (`let _ = ...`), is
  modelled with an explicit deletion-outcome oracle `delOk : String → Bool`
  saying which removals succeed, so that theorems can quantify over
  deletion outcomes.
* The process-wide `UPLOADING_FILES` dashmap is an association list from
  file-id strings to completion vectors (`Registry`), threaded through the
  operations explicitly.  `entry(..).or_insert_with(..)` becomes a lookup
  with default followed by a store of the (possibly updated) vector.
* `OpenOptions::new().create(true).write(true).open(..)` creates the file
  empty when absent and otherwise keeps the existing bytes; writes then
  overwrite from offset 0, so the final content of the output path is the
  written bytes followed by whatever tail of the previous content lies
  beyond them.  (The source does NOT set `.truncate(true)`.)  The
  `BufWriter` is flushed on every exit path (its `drop` flush, whose errors
  are ignored, always succeeds in the model).
* Byte slices are `List Nat`, strings are `String`, `Path::join` is string
  concatenation with a `/` separator (the naming functions used by
  witnesses return relative paths).
-/

abbrev Bytes := List Nat

/-- Association-list lookup: value of the first entry with the given key. -/
def lookupA {α : Type} : List (String × α) → String → Option α
  | [], _ => none
  | (k, v) :: rest, key => if k = key then some v else lookupA rest key

/-- Association-list store: replaces the first entry with the given key,
appending a new entry when the key is absent. -/
def insertA {α : Type} : List (String × α) → String → α → List (String × α)
  | [], key, v => [(key, v)]
  | (k, w) :: rest, key, v =>
      if k = key then (key, v) :: rest else (k, w) :: insertA rest key v

/-- Association-list removal of the first entry with the given key. -/
def eraseA {α : Type} : List (String × α) → String → List (String × α)
  | [], _ => []
  | (k, w) :: rest, key => if k = key then rest else (k, w) :: eraseA rest key

/-- In-memory filesystem: path → file content. -/
abbrev Fs := List (String × Bytes)

/-- The process-wide `UPLOADING_FILES` map: file id → completion vector. -/
abbrev Registry := List (String × List Bool)

/-- The error enum `ChunkStrategyError` of the source. -/
inductive ChunkStrategyError where
  | IndexOutOfBounds : Nat → Nat → ChunkStrategyError
  | CreateDirectory : String → ChunkStrategyError
  | WriteChunk : String → ChunkStrategyError
  | Merge : ChunkStrategyError
  | CreateOutputFile : String → ChunkStrategyError
  | ReadChunk : String → ChunkStrategyError
  | WriteOutput : String → ChunkStrategyError
deriving DecidableEq

/-- The `ChunkStrategy` session descriptor (lifetimes and the boxed naming
closure are elided; the naming function is a plain function field). -/
structure ChunkStrategy where
  start_chunk_index : Nat
  upload_dir : String
  file_id : String
  file_name : String
  total_chunks : Nat
  file_name_func : String → Nat → String

/-- `ChunkStrategy::new`: pure validation plus field capture, no I/O (it
takes and returns no filesystem or registry state). -/
def ChunkStrategy.new (start_chunk_index : Nat) (upload_dir file_id file_name : String)
    (total_chunks : Nat) (file_name_func : String → Nat → String) :
    Except ChunkStrategyError ChunkStrategy :=
  if start_chunk_index ≥ total_chunks then
    .error (.IndexOutOfBounds start_chunk_index total_chunks)
  else
    .ok ⟨start_chunk_index, upload_dir, file_id, file_name, total_chunks, file_name_func⟩

/-- `Path::new(dir).join(rel)` for a relative `rel`. -/
def joinPath (dir rel : String) : String := dir ++ "/" ++ rel

/-- `get_chunk_json_path`: applies the naming function. -/
def ChunkStrategy.get_chunk_json_path (s : ChunkStrategy) (file_id : String)
    (chunk_index : Nat) : String :=
  s.file_name_func file_id chunk_index

/-- `get_chunk_path`: the naming function's output joined under `upload_dir`. -/
def ChunkStrategy.get_chunk_path (s : ChunkStrategy) (file_id : String)
    (chunk_index : Nat) : String :=
  joinPath s.upload_dir (s.get_chunk_json_path file_id chunk_index)

/-- `async_write_to_file`: create-or-truncate write, always succeeds. -/
def async_write_to_file (fs : Fs) (path : String) (data : Bytes) : Fs :=
  insertA fs path data

/-- `async_read_from_file`: whole-file read, fails iff the path is absent. -/
def async_read_from_file (fs : Fs) (path : String) : Option Bytes :=
  lookupA fs path

deriving instance DecidableEq for Except

/-- Result of one `save_chunk` or `merge_chunks` call: the returned
`Result` together with the registry and filesystem after the call. -/
structure StepResult where
  result : Except ChunkStrategyError Unit
  reg : Registry
  fs : Fs
deriving DecidableEq

/-- `HandleStrategy::save_chunk`: ensures the directory (a no-op in the
model), writes the chunk payload to its resolved path, then under the
registry entry for `file_id` (created all-false when absent, reset to
all-false when its length disagrees with `total_chunks`) bounds-checks
`chunk_index` and on success marks it true. -/
def ChunkStrategy.save_chunk (s : ChunkStrategy) (reg : Registry) (fs : Fs)
    (chunk_data : Bytes) (chunk_index : Nat) : StepResult :=
  let chunk_path := s.get_chunk_path s.file_id chunk_index
  let fs1 := async_write_to_file fs chunk_path chunk_data
  let v0 := (lookupA reg s.file_id).getD (List.replicate s.total_chunks false)
  let v1 := if v0.length ≠ s.total_chunks then List.replicate s.total_chunks false else v0
  if chunk_index ≥ v1.length then
    ⟨.error (.IndexOutOfBounds chunk_index s.total_chunks), insertA reg s.file_id v1, fs1⟩
  else
    ⟨.ok (), insertA reg s.file_id (v1.set chunk_index true), fs1⟩

/-- Result of the merge read/append/delete loop: the loop's `Result`, the
filesystem after the deletions performed so far, and the bytes written to
the (buffered) output writer so far. -/
structure LoopResult where
  res : Except ChunkStrategyError Unit
  fs : Fs
  acc : Bytes
deriving DecidableEq

/-- The `for i in self.start_chunk_index..self.total_chunks` loop of
`merge_chunks`: for each index, read the chunk file (else `ReadChunk`),
append its bytes to the output buffer, then best-effort delete the
fragment (outcome given by `delOk`, result discarded). -/
def mergeLoop (s : ChunkStrategy) (delOk : String → Bool) :
    List Nat → Fs → Bytes → LoopResult
  | [], fs, acc => ⟨.ok (), fs, acc⟩
  | i :: rest, fs, acc =>
    let chunk_path := s.get_chunk_path s.file_id i
    match async_read_from_file fs chunk_path with
    | none => ⟨.error (.ReadChunk ("Failed to read chunk from " ++ chunk_path)), fs, acc⟩
    | some chunk_data =>
        let fs1 := if delOk chunk_path then eraseA fs chunk_path else fs
        mergeLoop s delOk rest fs1 (acc ++ chunk_data)

/-- `HandleStrategy::merge_chunks`: fetch-or-create the completion vector,
fail with `Merge` unless every entry of the stored vector is true, else
clear the vector, open the output path (`create(true).write(true)`, no
truncation), run the read/append/delete loop, and flush the buffered
output bytes over the front of the output file's previous content. -/
def ChunkStrategy.merge_chunks (s : ChunkStrategy) (reg : Registry) (fs : Fs)
    (delOk : String → Bool) : StepResult :=
  let v := (lookupA reg s.file_id).getD (List.replicate s.total_chunks false)
  let reg1 := insertA reg s.file_id v
  if v.all (fun status => status) then
    let reg2 := insertA reg1 s.file_id []
    let final_path := joinPath s.upload_dir s.file_name
    let old := (lookupA fs final_path).getD []
    let fsOpen := if (lookupA fs final_path).isSome then fs else insertA fs final_path []
    let r := mergeLoop s delOk
      (List.range' s.start_chunk_index (s.total_chunks - s.start_chunk_index)) fsOpen []
    ⟨r.res, reg2, insertA r.fs final_path (r.acc ++ old.drop r.acc.length)⟩
  else
    ⟨.error .Merge, reg1, fs⟩

/-- A concrete naming function used by witnesses. -/
def namingEx : String → Nat → String :=
  fun _ i => "chunk_" ++ Nat.repr i

/-! ## Association-list lemmas -/

theorem lookupA_insertA_self {α : Type} (l : List (String × α)) (k : String) (v : α) :
    lookupA (insertA l k v) k = some v := by
  induction l with
  | nil => simp [insertA, lookupA]
  | cons p rest ih =>
      obtain ⟨a, b⟩ := p
      by_cases h : a = k
      · simp [insertA, lookupA, h]
      · simp [insertA, lookupA, h, ih]

theorem lookupA_insertA_ne {α : Type} (l : List (String × α)) (k q : String) (v : α)
    (h : q ≠ k) : lookupA (insertA l k v) q = lookupA l q := by
  induction l with
  | nil => simp [insertA, lookupA, Ne.symm h]
  | cons p rest ih =>
      obtain ⟨a, b⟩ := p
      by_cases ha : a = k
      · subst ha
        simp [insertA, lookupA, Ne.symm h]
      · simp [insertA, lookupA, ha, ih, h, Ne.symm h]

theorem lookupA_eraseA_ne {α : Type} (l : List (String × α)) (k q : String)
    (h : q ≠ k) : lookupA (eraseA l k) q = lookupA l q := by
  induction l with
  | nil => simp [eraseA]
  | cons p rest ih =>
      obtain ⟨a, b⟩ := p
      by_cases ha : a = k
      · subst ha
        simp [eraseA, lookupA, Ne.symm h]
      · simp [eraseA, lookupA, ha, ih, h, Ne.symm h]

/-! ## Lemmas about the merge loop -/

/-- The read/append/delete loop never produces the `Merge` error: its only
failure mode is `ReadChunk`. -/
theorem mergeLoop_res_ne_merge (s : ChunkStrategy) (d : String → Bool) :
    ∀ (idxs : List Nat) (fs : Fs) (acc : Bytes),
      (mergeLoop s d idxs fs acc).res ≠ Except.error ChunkStrategyError.Merge := by
  intro idxs
  induction idxs with
  | nil => intro fs acc; simp [mergeLoop]
  | cons i rest ih =>
      intro fs acc
      simp only [mergeLoop]
      split
      · simp
      · exact ih _ _

/-- C3: construction succeeds exactly when `start_chunk_index < total_chunks`,
capturing the given fields; otherwise it fails with
`IndexOutOfBounds(start_chunk_index, total_chunks)`.  (`new` is a pure
function of its six arguments — it touches no `Fs` or `Registry` state, so
no I/O occurs in either case.) -/
theorem chunkStrategy_new_spec (start total : Nat) (dir fid fname : String)
    (f : String → Nat → String) :
    (start < total →
      ChunkStrategy.new start dir fid fname total f =
        .ok ⟨start, dir, fid, fname, total, f⟩) ∧
    (total ≤ start →
      ChunkStrategy.new start dir fid fname total f =
        .error (.IndexOutOfBounds start total)) := by
  constructor
  · intro h
    simp only [ChunkStrategy.new, ge_iff_le]
    rw [if_neg (by omega)]
  · intro h
    simp only [ChunkStrategy.new, ge_iff_le]
    rw [if_pos (by omega)]

/-- Witness for C3 at `start = 0, total = 3` (success side) and
`start = 3, total = 3` (failure side). -/
theorem chunkStrategy_new_spec_w :
    ChunkStrategy.new 0 "d" "f" "out" 3 namingEx =
      .ok ⟨0, "d", "f", "out", 3, namingEx⟩ ∧
    ChunkStrategy.new 3 "d" "f" "out" 3 namingEx =
      .error (.IndexOutOfBounds 3 3) :=
  ⟨(chunkStrategy_new_spec 0 3 "d" "f" "out" namingEx).1 (by decide),
   (chunkStrategy_new_spec 3 3 "d" "f" "out" namingEx).2 (by decide)⟩

/-- C2 (counterexample): with `total_chunks = 2` but a stored completion
vector `[true]` of length 1 — so index 1 of `[0, 2)` is certainly not true
in it — `merge_chunks` does NOT fail with `Merge` (its completeness check
is over the stored vector only, whatever its length): it proceeds to the
filesystem phase and fails later with `ReadChunk`. -/
theorem merge_gate_cex :
    (ChunkStrategy.merge_chunks ⟨0, "d", "f", "out", 2, namingEx⟩
        [("f", [true])] [] (fun _ => false)).result ≠
      Except.error ChunkStrategyError.Merge := by
  decide

/-- C2 (amended): `merge_chunks` fails with `Merge` exactly when some entry
of the stored completion vector (the all-false vector of length
`total_chunks` when no entry exists) is false — the check ranges over the
stored vector, not over `[0, total_chunks)`.  In particular, when the
stored vector does have length `total_chunks` and some index below
`total_chunks` is false, the call fails with `Merge`. -/
theorem merge_gate_iff (s : ChunkStrategy) (reg : Registry) (fs : Fs)
    (d : String → Bool) :
    ((s.merge_chunks reg fs d).result = Except.error ChunkStrategyError.Merge ↔
      ¬ (((lookupA reg s.file_id).getD
            (List.replicate s.total_chunks false)).all (fun b => b) = true)) ∧
    (∀ v, lookupA reg s.file_id = some v → v.length = s.total_chunks →
      (∃ i, i < s.total_chunks ∧ v[i]? = some false) →
      (s.merge_chunks reg fs d).result = Except.error ChunkStrategyError.Merge) := by
  have hmain : (s.merge_chunks reg fs d).result =
      Except.error ChunkStrategyError.Merge ↔
      ¬ (((lookupA reg s.file_id).getD
            (List.replicate s.total_chunks false)).all (fun b => b) = true) := by
    by_cases hv : ((lookupA reg s.file_id).getD
        (List.replicate s.total_chunks false)).all (fun b => b) = true
    · simp only [ChunkStrategy.merge_chunks, hv, if_true]
      simp only [hv, not_true, iff_false]
      exact mergeLoop_res_ne_merge s d _ _ _
    · simp only [ChunkStrategy.merge_chunks, hv, if_false]
      simp [hv]
  refine ⟨hmain, ?_⟩
  intro v hv hlen ⟨i, hi, hfalse⟩
  refine hmain.mpr ?_
  rw [hv]
  simp only [Option.getD_some, List.all_eq_true]
  intro hall
  have hmem : false ∈ v := by
    rw [List.mem_iff_getElem?]
    exact ⟨i, hfalse⟩
  have := hall false hmem
  simp at this

/-- Witness for C2's amended theorem: a length-2 all-false stored vector
makes the merge fail with `Merge`. -/
theorem merge_gate_iff_w :
    (ChunkStrategy.merge_chunks ⟨0, "d", "f", "out", 2, namingEx⟩
        [("f", [false, false])] [] (fun _ => false)).result =
      Except.error ChunkStrategyError.Merge :=
  (merge_gate_iff ⟨0, "d", "f", "out", 2, namingEx⟩ [("f", [false, false])] []
      (fun _ => false)).2 [false, false] (by decide) (by decide)
    ⟨0, by decide, by decide⟩

/-- C4: when the completion vector (the all-false vector of length
`total_chunks` when no entry exists) has the declared length and some
index below `total_chunks` is false, `merge_chunks` returns the `Merge`
error and leaves the filesystem — in particular the output path — entirely
untouched. -/
theorem merge_incomplete_no_write (s : ChunkStrategy) (reg : Registry) (fs : Fs)
    (d : String → Bool) (i : Nat)
    (hlen : ((lookupA reg s.file_id).getD
        (List.replicate s.total_chunks false)).length = s.total_chunks)
    (hi : i < s.total_chunks)
    (hfalse : ((lookupA reg s.file_id).getD
        (List.replicate s.total_chunks false))[i]? = some false) :
    (s.merge_chunks reg fs d).result = Except.error ChunkStrategyError.Merge ∧
    (s.merge_chunks reg fs d).fs = fs := by
  have hnall : ¬ (((lookupA reg s.file_id).getD
      (List.replicate s.total_chunks false)).all (fun b => b) = true) := by
    simp only [List.all_eq_true]
    intro hall
    have hmem : false ∈ ((lookupA reg s.file_id).getD
        (List.replicate s.total_chunks false)) := by
      rw [List.mem_iff_getElem?]
      exact ⟨i, hfalse⟩
    have := hall false hmem
    simp at this
  constructor <;> simp only [ChunkStrategy.merge_chunks, hnall, if_false] <;> simp

/-- Witness for C4: no registry entry for the file id, `total_chunks = 1`;
the merge fails with `Merge` and the filesystem is unchanged. -/
theorem merge_incomplete_no_write_w :
    (ChunkStrategy.merge_chunks ⟨0, "d", "f", "out", 1, namingEx⟩ []
        [("x", [1])] (fun _ => false)).result =
      Except.error ChunkStrategyError.Merge ∧
    (ChunkStrategy.merge_chunks ⟨0, "d", "f", "out", 1, namingEx⟩ []
        [("x", [1])] (fun _ => false)).fs = [("x", [1])] :=
  merge_incomplete_no_write ⟨0, "d", "f", "out", 1, namingEx⟩ [] [("x", [1])]
    (fun _ => false) 0 (by decide) (by decide) (by decide)

/-- C10: when the stored completion vector for the file id is empty (the
state a successful merge leaves behind), a subsequent `merge_chunks` does
not fail with `Merge` — the all-true check passes vacuously — and the
filesystem phase runs: afterwards the output path holds a file. -/
theorem merge_empty_vector_passes (s : ChunkStrategy) (reg : Registry) (fs : Fs)
    (d : String → Bool) (h : lookupA reg s.file_id = some []) :
    (s.merge_chunks reg fs d).result ≠ Except.error ChunkStrategyError.Merge ∧
    ∃ content, lookupA (s.merge_chunks reg fs d).fs
        (joinPath s.upload_dir s.file_name) = some content := by
  have hv : ((lookupA reg s.file_id).getD
      (List.replicate s.total_chunks false)).all (fun b => b) = true := by
    rw [h]; rfl
  constructor
  · simp only [ChunkStrategy.merge_chunks, hv, if_true]
    exact mergeLoop_res_ne_merge s d _ _ _
  · simp only [ChunkStrategy.merge_chunks, hv, if_true]
    exact ⟨_, lookupA_insertA_self _ _ _⟩

/-- Witness for C10: empty stored vector, empty filesystem — the merge
fails with `ReadChunk` (not `Merge`) and the output file was created. -/
theorem merge_empty_vector_passes_w :
    (ChunkStrategy.merge_chunks ⟨0, "d", "f", "out", 1, namingEx⟩
        [("f", [])] [] (fun _ => false)).result ≠
      Except.error ChunkStrategyError.Merge ∧
    ∃ content, lookupA (ChunkStrategy.merge_chunks ⟨0, "d", "f", "out", 1, namingEx⟩
        [("f", [])] [] (fun _ => false)).fs (joinPath "d" "out") = some content :=
  merge_empty_vector_passes ⟨0, "d", "f", "out", 1, namingEx⟩ [("f", [])] []
    (fun _ => false) (by decide)

/-- C5: a `save_chunk` call with `chunk_index ≥ total_chunks` that reaches
the bookkeeping step returns `IndexOutOfBounds(chunk_index, total_chunks)`,
yet the payload has already been written to the resolved chunk path, and
the stored completion vector gains no true bit: every index true after the
call was already true in the vector the call found (or created). -/
theorem save_chunk_out_of_bounds (s : ChunkStrategy) (reg : Registry) (fs : Fs)
    (data : Bytes) (k : Nat) (h : s.total_chunks ≤ k) :
    (s.save_chunk reg fs data k).result =
      Except.error (ChunkStrategyError.IndexOutOfBounds k s.total_chunks) ∧
    lookupA (s.save_chunk reg fs data k).fs (s.get_chunk_path s.file_id k) =
      some data ∧
    ∃ v1 : List Bool, lookupA (s.save_chunk reg fs data k).reg s.file_id = some v1 ∧
      v1.length = s.total_chunks ∧
      ∀ j : Nat, v1[j]? = some true →
        ((lookupA reg s.file_id).getD
          (List.replicate s.total_chunks false))[j]? = some true := by
  set v0 := (lookupA reg s.file_id).getD (List.replicate s.total_chunks false) with hv0
  set v1 := if v0.length ≠ s.total_chunks then List.replicate s.total_chunks false
    else v0 with hv1
  have hlen : v1.length = s.total_chunks := by
    rw [hv1]; split <;> simp_all
  have hge : k ≥ v1.length := by omega
  have hstep : s.save_chunk reg fs data k =
      ⟨Except.error (ChunkStrategyError.IndexOutOfBounds k s.total_chunks),
        insertA reg s.file_id v1,
        async_write_to_file fs (s.get_chunk_path s.file_id k) data⟩ := by
    simp only [ChunkStrategy.save_chunk, ← hv0, ← hv1, if_pos hge]
  refine ⟨by rw [hstep], ?_, ?_⟩
  · rw [hstep]
    exact lookupA_insertA_self _ _ _
  · refine ⟨v1, by rw [hstep]; exact lookupA_insertA_self _ _ _, hlen, ?_⟩
    intro j hj
    rw [hv1] at hj
    by_cases hcase : v0.length ≠ s.total_chunks
    · rw [if_pos hcase] at hj
      rw [List.getElem?_replicate] at hj
      split at hj <;> simp_all
    · rwa [if_neg hcase] at hj

/-- Witness for C5: `total_chunks = 2`, `chunk_index = 5`, no prior entry. -/
theorem save_chunk_out_of_bounds_w :
    (ChunkStrategy.save_chunk ⟨0, "d", "f", "out", 2, namingEx⟩ [] [] [7] 5).result =
      Except.error (ChunkStrategyError.IndexOutOfBounds 5 2) ∧
    lookupA (ChunkStrategy.save_chunk ⟨0, "d", "f", "out", 2, namingEx⟩
        [] [] [7] 5).fs
      (ChunkStrategy.get_chunk_path ⟨0, "d", "f", "out", 2, namingEx⟩ "f" 5) =
      some [7] ∧
    ∃ v1 : List Bool, lookupA (ChunkStrategy.save_chunk ⟨0, "d", "f", "out", 2, namingEx⟩
        [] [] [7] 5).reg "f" = some v1 ∧
      v1.length = 2 ∧
      ∀ j : Nat, v1[j]? = some true →
        ((lookupA ([] : Registry) "f").getD (List.replicate 2 false))[j]? =
          some true :=
  save_chunk_out_of_bounds ⟨0, "d", "f", "out", 2, namingEx⟩ [] [] [7] 5
    (by decide)

/-- C9: when the stored entry's length disagrees with the session's
`total_chunks`, `save_chunk` replaces it with a fresh all-false vector of
length `total_chunks` before the bounds check and marking: an in-bounds
index ends with exactly that fresh vector with its own bit set (all prior
true flags discarded), and an out-of-bounds index leaves exactly the fresh
all-false vector. -/
theorem save_chunk_resets_mismatched (s : ChunkStrategy) (reg : Registry)
    (fs : Fs) (data : Bytes) (k : Nat) (v0 : List Bool)
    (h0 : lookupA reg s.file_id = some v0) (hlen : v0.length ≠ s.total_chunks) :
    (k < s.total_chunks →
      (s.save_chunk reg fs data k).result = Except.ok () ∧
      lookupA (s.save_chunk reg fs data k).reg s.file_id =
        some ((List.replicate s.total_chunks false).set k true)) ∧
    (s.total_chunks ≤ k →
      (s.save_chunk reg fs data k).result =
        Except.error (ChunkStrategyError.IndexOutOfBounds k s.total_chunks) ∧
      lookupA (s.save_chunk reg fs data k).reg s.file_id =
        some (List.replicate s.total_chunks false)) := by
  have hreset : (if ((lookupA reg s.file_id).getD
      (List.replicate s.total_chunks false)).length ≠ s.total_chunks
      then List.replicate s.total_chunks false
      else (lookupA reg s.file_id).getD (List.replicate s.total_chunks false)) =
      List.replicate s.total_chunks false := by
    rw [h0]
    simp only [Option.getD_some]
    rw [if_pos hlen]
  constructor
  · intro hk
    have hnge : ¬ k ≥ (List.replicate s.total_chunks false).length := by
      simp only [List.length_replicate]; omega
    constructor <;>
      simp only [ChunkStrategy.save_chunk, hreset, if_neg hnge,
        lookupA_insertA_self]
  · intro hk
    have hge : k ≥ (List.replicate s.total_chunks false).length := by
      simp only [List.length_replicate]; omega
    constructor <;>
      simp only [ChunkStrategy.save_chunk, hreset, if_pos hge,
        lookupA_insertA_self]

/-- Witness for C9: stale entry `[true]` of length 1, session with
`total_chunks = 2`, in-bounds save at index 0: the prior true flag is
discarded and the entry becomes `[true, false]` built from all-false. -/
theorem save_chunk_resets_mismatched_w :
    (ChunkStrategy.save_chunk ⟨0, "d", "f", "out", 2, namingEx⟩
        [("f", [true])] [] [7] 0).result = Except.ok () ∧
    lookupA (ChunkStrategy.save_chunk ⟨0, "d", "f", "out", 2, namingEx⟩
        [("f", [true])] [] [7] 0).reg "f" =
      some ((List.replicate 2 false).set 0 true) :=
  (save_chunk_resets_mismatched ⟨0, "d", "f", "out", 2, namingEx⟩
      [("f", [true])] [] [7] 0 [true] (by decide) (by decide)).1 (by decide)

/-- The vector `save_chunk` works on: the stored entry (all-false when
absent), reset to all-false when its length disagrees with `total`.  Its
length is always `total`. -/
theorem fetch_length (reg : Registry) (fid : String) (total : Nat) :
    (if ((lookupA reg fid).getD (List.replicate total false)).length ≠ total
      then List.replicate total false
      else (lookupA reg fid).getD (List.replicate total false)).length = total := by
  split
  · simp
  · next h => exact not_ne_iff.mp h

/-- Unfolding of an in-bounds `save_chunk` call. -/
theorem save_chunk_eq_of_lt (s : ChunkStrategy) (reg : Registry) (fs : Fs)
    (data : Bytes) (k : Nat) (hk : k < s.total_chunks) :
    s.save_chunk reg fs data k =
      ⟨Except.ok (),
        insertA reg s.file_id
          ((if ((lookupA reg s.file_id).getD
                (List.replicate s.total_chunks false)).length ≠ s.total_chunks
            then List.replicate s.total_chunks false
            else (lookupA reg s.file_id).getD
              (List.replicate s.total_chunks false)).set k true),
        insertA fs (s.get_chunk_path s.file_id k) data⟩ := by
  have hlen := fetch_length reg s.file_id s.total_chunks
  simp only [ChunkStrategy.save_chunk, async_write_to_file]
  rw [if_neg (by rw [hlen]; omega)]

/-- C7: for an in-bounds index, saving the same index twice with two
payloads succeeds both times, the second payload is the one stored at the
chunk path afterwards (last-write-wins), and the second call changes no
completion bit: index `i` stays true and every other index keeps the value
it had after the first call. -/
theorem save_chunk_resave (s : ChunkStrategy) (reg : Registry) (fs : Fs)
    (p1 p2 : Bytes) (i : Nat) (h : i < s.total_chunks) :
    (s.save_chunk reg fs p1 i).result = Except.ok () ∧
    (s.save_chunk (s.save_chunk reg fs p1 i).reg
      (s.save_chunk reg fs p1 i).fs p2 i).result = Except.ok () ∧
    lookupA (s.save_chunk (s.save_chunk reg fs p1 i).reg
        (s.save_chunk reg fs p1 i).fs p2 i).fs
      (s.get_chunk_path s.file_id i) = some p2 ∧
    ∃ v1 v2 : List Bool,
      lookupA (s.save_chunk reg fs p1 i).reg s.file_id = some v1 ∧
      lookupA (s.save_chunk (s.save_chunk reg fs p1 i).reg
          (s.save_chunk reg fs p1 i).fs p2 i).reg s.file_id = some v2 ∧
      v2.length = v1.length ∧
      v1[i]? = some true ∧ v2[i]? = some true ∧
      ∀ j : Nat, j ≠ i → v2[j]? = v1[j]? := by
  have h1 := save_chunk_eq_of_lt s reg fs p1 i h
  set w := (if ((lookupA reg s.file_id).getD
        (List.replicate s.total_chunks false)).length ≠ s.total_chunks
      then List.replicate s.total_chunks false
      else (lookupA reg s.file_id).getD
        (List.replicate s.total_chunks false)) with hw
  have hwlen : w.length = s.total_chunks := fetch_length reg s.file_id s.total_chunks
  have hilen : i < w.length := by omega
  have hX : lookupA (s.save_chunk reg fs p1 i).reg s.file_id = some (w.set i true) := by
    rw [h1]
    exact lookupA_insertA_self _ _ _
  have h2 := save_chunk_eq_of_lt s (s.save_chunk reg fs p1 i).reg
    (s.save_chunk reg fs p1 i).fs p2 i h
  have hfetch2 : (if ((lookupA (s.save_chunk reg fs p1 i).reg s.file_id).getD
        (List.replicate s.total_chunks false)).length ≠ s.total_chunks
      then List.replicate s.total_chunks false
      else (lookupA (s.save_chunk reg fs p1 i).reg s.file_id).getD
        (List.replicate s.total_chunks false)) = w.set i true := by
    rw [hX]
    simp only [Option.getD_some]
    rw [if_neg (by simp [hilen, hwlen])]
  rw [hfetch2] at h2
  refine ⟨by rw [h1], by rw [h2], ?_, ?_⟩
  · rw [h2]
    exact lookupA_insertA_self _ _ _
  · refine ⟨w.set i true, (w.set i true).set i true, hX, ?_, ?_, ?_, ?_, ?_⟩
    · rw [h2]
      exact lookupA_insertA_self _ _ _
    · simp
    · exact List.getElem?_set_self hilen
    · exact List.getElem?_set_self (by simpa using hilen)
    · intro j hj
      exact List.getElem?_set_ne (fun hij => hj hij.symm)

/-- Witness for C7: `total_chunks = 2`, index 1 saved with payload `[1]`
then payload `[2]`. -/
theorem save_chunk_resave_w :
    (ChunkStrategy.save_chunk ⟨0, "d", "f", "out", 2, namingEx⟩ [] [] [1] 1).result =
      Except.ok () ∧
    (ChunkStrategy.save_chunk ⟨0, "d", "f", "out", 2, namingEx⟩
      (ChunkStrategy.save_chunk ⟨0, "d", "f", "out", 2, namingEx⟩ [] [] [1] 1).reg
      (ChunkStrategy.save_chunk ⟨0, "d", "f", "out", 2, namingEx⟩ [] [] [1] 1).fs
      [2] 1).result = Except.ok () ∧
    lookupA (ChunkStrategy.save_chunk ⟨0, "d", "f", "out", 2, namingEx⟩
        (ChunkStrategy.save_chunk ⟨0, "d", "f", "out", 2, namingEx⟩ [] [] [1] 1).reg
        (ChunkStrategy.save_chunk ⟨0, "d", "f", "out", 2, namingEx⟩ [] [] [1] 1).fs
        [2] 1).fs
      (ChunkStrategy.get_chunk_path ⟨0, "d", "f", "out", 2, namingEx⟩ "f" 1) =
      some [2] ∧
    ∃ v1 v2 : List Bool,
      lookupA (ChunkStrategy.save_chunk ⟨0, "d", "f", "out", 2, namingEx⟩
          [] [] [1] 1).reg "f" = some v1 ∧
      lookupA (ChunkStrategy.save_chunk ⟨0, "d", "f", "out", 2, namingEx⟩
          (ChunkStrategy.save_chunk ⟨0, "d", "f", "out", 2, namingEx⟩ [] [] [1] 1).reg
          (ChunkStrategy.save_chunk ⟨0, "d", "f", "out", 2, namingEx⟩ [] [] [1] 1).fs
          [2] 1).reg "f" = some v2 ∧
      v2.length = v1.length ∧
      v1[1]? = some true ∧ v2[1]? = some true ∧
      ∀ j : Nat, j ≠ 1 → v2[j]? = v1[j]? :=
  save_chunk_resave ⟨0, "d", "f", "out", 2, namingEx⟩ [] [] [1] [2] 1 (by decide)

/-! ## Keys-without-duplicates machinery (for comparing deletion outcomes) -/

/-- A filesystem/registry association list with pairwise-distinct keys (the
states reachable by the operations of this development all have this). -/
def keysNodup {α : Type} (l : List (String × α)) : Prop :=
  (l.map Prod.fst).Nodup

instance keysNodup_decidable {α : Type} (l : List (String × α)) :
    Decidable (keysNodup l) :=
  inferInstanceAs (Decidable ((l.map Prod.fst).Nodup))

theorem lookupA_eq_none_of_not_mem {α : Type} (l : List (String × α)) (k : String)
    (h : k ∉ l.map Prod.fst) : lookupA l k = none := by
  induction l with
  | nil => rfl
  | cons p rest ih =>
      obtain ⟨a, b⟩ := p
      simp only [List.map_cons, List.mem_cons, not_or] at h
      simp only [lookupA]
      rw [if_neg (fun he => h.1 he.symm)]
      exact ih h.2

theorem keysNodup_cons_tail {α : Type} (a : String) (b : α) (rest : List (String × α))
    (h : keysNodup ((a, b) :: rest)) : keysNodup rest := by
  simpa [keysNodup] using (List.nodup_cons.mp (by simpa [keysNodup] using h)).2

theorem lookupA_eraseA_self {α : Type} (l : List (String × α)) (k : String)
    (h : keysNodup l) : lookupA (eraseA l k) k = none := by
  induction l with
  | nil => rfl
  | cons p rest ih =>
      obtain ⟨a, b⟩ := p
      have hrest := keysNodup_cons_tail a b rest h
      by_cases ha : a = k
      · subst ha
        simp only [eraseA, if_pos rfl]
        exact lookupA_eq_none_of_not_mem rest a
          (List.nodup_cons.mp (by simpa [keysNodup] using h)).1
      · simp only [eraseA, if_neg ha, lookupA]
        exact ih hrest

theorem mem_keys_eraseA {α : Type} (l : List (String × α)) (k q : String)
    (h : q ∈ (eraseA l k).map Prod.fst) : q ∈ l.map Prod.fst := by
  induction l with
  | nil => simpa [eraseA] using h
  | cons p rest ih =>
      obtain ⟨a, b⟩ := p
      by_cases ha : a = k
      · simp only [eraseA, if_pos ha] at h
        simp [h]
      · simp only [eraseA, if_neg ha, List.map_cons, List.mem_cons] at h
        rcases h with h | h
        · simp [h]
        · simp [ih h]

theorem keysNodup_eraseA {α : Type} (l : List (String × α)) (k : String)
    (h : keysNodup l) : keysNodup (eraseA l k) := by
  induction l with
  | nil => exact h
  | cons p rest ih =>
      obtain ⟨a, b⟩ := p
      have hna : a ∉ rest.map Prod.fst :=
        (List.nodup_cons.mp (by simpa [keysNodup] using h)).1
      have hrest := keysNodup_cons_tail a b rest h
      by_cases ha : a = k
      · simpa [eraseA, if_pos ha] using hrest
      · have : keysNodup (eraseA rest k) := ih hrest
        simp only [keysNodup, eraseA, if_neg ha, List.map_cons]
        exact List.nodup_cons.mpr
          ⟨fun hmem => hna (mem_keys_eraseA rest k a hmem), this⟩

theorem mem_keys_insertA {α : Type} (l : List (String × α)) (k q : String) (v : α)
    (h : q ∈ (insertA l k v).map Prod.fst) : q = k ∨ q ∈ l.map Prod.fst := by
  induction l with
  | nil => simpa [insertA] using h
  | cons p rest ih =>
      obtain ⟨a, b⟩ := p
      by_cases ha : a = k
      · simp only [insertA, if_pos ha, List.map_cons, List.mem_cons] at h
        rcases h with h | h
        · exact Or.inl h
        · exact Or.inr (by simp [h])
      · simp only [insertA, if_neg ha, List.map_cons, List.mem_cons] at h
        rcases h with h | h
        · exact Or.inr (by simp [h])
        · rcases ih h with h2 | h2
          · exact Or.inl h2
          · exact Or.inr (by simp [h2])

theorem keysNodup_insertA {α : Type} (l : List (String × α)) (k : String) (v : α)
    (h : keysNodup l) : keysNodup (insertA l k v) := by
  induction l with
  | nil => simp [keysNodup, insertA]
  | cons p rest ih =>
      obtain ⟨a, b⟩ := p
      have hna : a ∉ rest.map Prod.fst :=
        (List.nodup_cons.mp (by simpa [keysNodup] using h)).1
      have hrest := keysNodup_cons_tail a b rest h
      by_cases ha : a = k
      · subst ha
        simp only [keysNodup, insertA, if_pos rfl, List.map_cons]
        exact List.nodup_cons.mpr ⟨hna, by simpa [keysNodup] using hrest⟩
      · have : keysNodup (insertA rest k v) := ih hrest
        simp only [keysNodup, insertA, if_neg ha, List.map_cons]
        refine List.nodup_cons.mpr ⟨fun hmem => ?_, this⟩
        rcases mem_keys_insertA rest k a v hmem with h2 | h2
        · exact ha h2
        · exact hna h2

/-- One filesystem's files are a subset of another's (same contents where
present). -/
def fsSub (fs1 fs2 : Fs) : Prop :=
  ∀ q v, lookupA fs1 q = some v → lookupA fs2 q = some v

/-- Step equation for the merge loop when the head chunk read succeeds. -/
theorem mergeLoop_cons_some (s : ChunkStrategy) (d : String → Bool) (i : Nat)
    (rest : List Nat) (fs : Fs) (acc : Bytes) (data : Bytes)
    (h : async_read_from_file fs (s.get_chunk_path s.file_id i) = some data) :
    mergeLoop s d (i :: rest) fs acc =
      mergeLoop s d rest
        (if d (s.get_chunk_path s.file_id i) then
          eraseA fs (s.get_chunk_path s.file_id i) else fs)
        (acc ++ data) := by
  simp only [mergeLoop, h]

/-- Step equation for the merge loop when the head chunk read fails. -/
theorem mergeLoop_cons_none (s : ChunkStrategy) (d : String → Bool) (i : Nat)
    (rest : List Nat) (fs : Fs) (acc : Bytes)
    (h : async_read_from_file fs (s.get_chunk_path s.file_id i) = none) :
    mergeLoop s d (i :: rest) fs acc =
      ⟨Except.error (ChunkStrategyError.ReadChunk
          ("Failed to read chunk from " ++ s.get_chunk_path s.file_id i)),
        fs, acc⟩ := by
  simp only [mergeLoop, h]

/-- A run of the merge loop whose reads all succeed still succeeds, with
the same appended bytes, when any subset of its fragment deletions fails
instead (`dw` deletes at most what `d` deletes, and the starting
filesystem may carry extra files). -/
theorem mergeLoop_mono (s : ChunkStrategy) (d dw : String → Bool)
    (hdd : ∀ q, dw q = true → d q = true) :
    ∀ (idxs : List Nat) (fs1 fs2 : Fs) (acc : Bytes),
      keysNodup fs1 → fsSub fs1 fs2 →
      (mergeLoop s d idxs fs1 acc).res = Except.ok () →
      (mergeLoop s dw idxs fs2 acc).res = Except.ok () ∧
      (mergeLoop s dw idxs fs2 acc).acc = (mergeLoop s d idxs fs1 acc).acc := by
  intro idxs
  induction idxs with
  | nil =>
      intro fs1 fs2 acc _ _ _
      exact ⟨rfl, rfl⟩
  | cons i rest ih =>
      intro fs1 fs2 acc hnd hsub hok
      cases hread : async_read_from_file fs1 (s.get_chunk_path s.file_id i) with
      | none =>
          rw [mergeLoop_cons_none s d i rest fs1 acc hread] at hok
          exact absurd hok (by simp)
      | some data =>
          have hread2 : async_read_from_file fs2 (s.get_chunk_path s.file_id i) =
              some data := hsub _ _ hread
          rw [mergeLoop_cons_some s d i rest fs1 acc data hread] at hok
          rw [mergeLoop_cons_some s d i rest fs1 acc data hread,
            mergeLoop_cons_some s dw i rest fs2 acc data hread2]
          have hnd2 : keysNodup (if d (s.get_chunk_path s.file_id i) then
              eraseA fs1 (s.get_chunk_path s.file_id i) else fs1) := by
            split
            · exact keysNodup_eraseA _ _ hnd
            · exact hnd
          have hsub2 : fsSub
              (if d (s.get_chunk_path s.file_id i) then
                eraseA fs1 (s.get_chunk_path s.file_id i) else fs1)
              (if dw (s.get_chunk_path s.file_id i) then
                eraseA fs2 (s.get_chunk_path s.file_id i) else fs2) := by
            intro q v hq
            by_cases hdp : d (s.get_chunk_path s.file_id i) = true
            · rw [if_pos hdp] at hq
              have hqp : q ≠ s.get_chunk_path s.file_id i := by
                intro he
                rw [he, lookupA_eraseA_self fs1 _ hnd] at hq
                exact Option.noConfusion hq
              rw [lookupA_eraseA_ne fs1 _ q hqp] at hq
              have hq2 := hsub q v hq
              by_cases hdwp : dw (s.get_chunk_path s.file_id i) = true
              · rw [if_pos hdwp]
                rw [lookupA_eraseA_ne fs2 _ q hqp]
                exact hq2
              · rw [if_neg hdwp]
                exact hq2
            · have hdwp : ¬ dw (s.get_chunk_path s.file_id i) = true :=
                fun hw => hdp (hdd _ hw)
              rw [if_neg hdp] at hq
              rw [if_neg hdwp]
              exact hsub q v hq
          exact ih _ _ _ hnd2 hsub2 hok

/-- C8: fragment-deletion outcomes never affect the result of
`merge_chunks` or the bytes of the output file.  If a merge succeeds under
deletion oracle `d`, it also succeeds — with identical output-file
content — under any oracle `dw` whose successful deletions are a subset of
`d`'s (in particular when every deletion fails): a deletion failure never
turns a successful merge into an error.  Each fragment is read (and its
bytes appended to the output buffer) strictly before the deletion attempt
of the same iteration, which is why the appended bytes are independent of
the deletion outcome. -/
theorem merge_deletion_failures_harmless (s : ChunkStrategy) (reg : Registry)
    (fs : Fs) (d dw : String → Bool) (hnd : keysNodup fs)
    (hdd : ∀ q, dw q = true → d q = true)
    (hok : (s.merge_chunks reg fs d).result = Except.ok ()) :
    (s.merge_chunks reg fs dw).result = Except.ok () ∧
    lookupA (s.merge_chunks reg fs dw).fs (joinPath s.upload_dir s.file_name) =
      lookupA (s.merge_chunks reg fs d).fs (joinPath s.upload_dir s.file_name) := by
  by_cases hv : ((lookupA reg s.file_id).getD
      (List.replicate s.total_chunks false)).all (fun status => status) = true
  · simp only [ChunkStrategy.merge_chunks, hv, if_true] at hok ⊢
    have hndo : keysNodup
        (if (lookupA fs (joinPath s.upload_dir s.file_name)).isSome = true
          then fs else insertA fs (joinPath s.upload_dir s.file_name) []) := by
      split
      · exact hnd
      · exact keysNodup_insertA _ _ _ hnd
    have hmono := mergeLoop_mono s d dw hdd
      (List.range' s.start_chunk_index (s.total_chunks - s.start_chunk_index))
      (if (lookupA fs (joinPath s.upload_dir s.file_name)).isSome = true
        then fs else insertA fs (joinPath s.upload_dir s.file_name) [])
      (if (lookupA fs (joinPath s.upload_dir s.file_name)).isSome = true
        then fs else insertA fs (joinPath s.upload_dir s.file_name) [])
      [] hndo (fun _ _ h => h) hok
    refine ⟨hmono.1, ?_⟩
    rw [lookupA_insertA_self, lookupA_insertA_self, hmono.2]
  · simp only [ChunkStrategy.merge_chunks, hv, if_false] at hok
    simp at hok

/-- Witness for C8: one complete chunk on disk; merging with all deletions
succeeding succeeds, so merging with all deletions failing also succeeds
with the same output bytes. -/
theorem merge_deletion_failures_harmless_w :
    (ChunkStrategy.merge_chunks ⟨0, "d", "f", "out", 1, namingEx⟩
        [("f", [true])] [("d/chunk_0", [65])] (fun _ => false)).result =
      Except.ok () ∧
    lookupA (ChunkStrategy.merge_chunks ⟨0, "d", "f", "out", 1, namingEx⟩
        [("f", [true])] [("d/chunk_0", [65])] (fun _ => false)).fs
      (joinPath "d" "out") =
    lookupA (ChunkStrategy.merge_chunks ⟨0, "d", "f", "out", 1, namingEx⟩
        [("f", [true])] [("d/chunk_0", [65])] (fun _ => true)).fs
      (joinPath "d" "out") :=
  merge_deletion_failures_harmless ⟨0, "d", "f", "out", 1, namingEx⟩
    [("f", [true])] [("d/chunk_0", [65])] (fun _ => true) (fun _ => false)
    (by decide) (fun _ _ => rfl) (by decide)

/-! ## Saving a whole sequence of chunks -/

/-- Sequentially performing `save_chunk` for each index of `order` (with
payload `p i` for index `i`), threading the registry and filesystem. -/
def saveAll (s : ChunkStrategy) (p : Nat → Bytes) :
    List Nat → Registry → Fs → Registry × Fs
  | [], reg, fs => (reg, fs)
  | i :: rest, reg, fs =>
      saveAll s p rest (s.save_chunk reg fs (p i) i).reg
        (s.save_chunk reg fs (p i) i).fs

/-- Every `save_chunk` call in the sequence returned `Ok(())`. -/
def saveAllOk (s : ChunkStrategy) (p : Nat → Bytes) :
    List Nat → Registry → Fs → Prop
  | [], _, _ => True
  | i :: rest, reg, fs =>
      (s.save_chunk reg fs (p i) i).result = Except.ok () ∧
      saveAllOk s p rest (s.save_chunk reg fs (p i) i).reg
        (s.save_chunk reg fs (p i) i).fs

/-- The registry holds, for `fid`, a vector of length `total` whose bit
`j` is set. -/
def regMarked (reg : Registry) (fid : String) (total j : Nat) : Prop :=
  ∃ v : List Bool, lookupA reg fid = some v ∧ v.length = total ∧ v[j]? = some true

/-- Unfolding of an out-of-bounds `save_chunk` call. -/
theorem save_chunk_eq_of_ge (s : ChunkStrategy) (reg : Registry) (fs : Fs)
    (data : Bytes) (k : Nat) (hk : s.total_chunks ≤ k) :
    s.save_chunk reg fs data k =
      ⟨Except.error (ChunkStrategyError.IndexOutOfBounds k s.total_chunks),
        insertA reg s.file_id
          (if ((lookupA reg s.file_id).getD
                (List.replicate s.total_chunks false)).length ≠ s.total_chunks
            then List.replicate s.total_chunks false
            else (lookupA reg s.file_id).getD
              (List.replicate s.total_chunks false)),
        insertA fs (s.get_chunk_path s.file_id k) data⟩ := by
  have hlen := fetch_length reg s.file_id s.total_chunks
  simp only [ChunkStrategy.save_chunk, async_write_to_file]
  rw [if_pos (by rw [hlen]; omega)]

/-- The filesystem effect of `save_chunk` (either branch): the payload is
stored at the resolved chunk path. -/
theorem save_chunk_fs_eq (s : ChunkStrategy) (reg : Registry) (fs : Fs)
    (data : Bytes) (k : Nat) :
    (s.save_chunk reg fs data k).fs =
      insertA fs (s.get_chunk_path s.file_id k) data := by
  simp only [ChunkStrategy.save_chunk, async_write_to_file]
  split <;> split <;> rfl

/-- An in-bounds `save_chunk` returns `Ok(())`. -/
theorem save_chunk_ok_of_lt (s : ChunkStrategy) (reg : Registry) (fs : Fs)
    (data : Bytes) (k : Nat) (hk : k < s.total_chunks) :
    (s.save_chunk reg fs data k).result = Except.ok () := by
  rw [save_chunk_eq_of_lt s reg fs data k hk]

/-- An in-bounds `save_chunk` marks its own index. -/
theorem save_chunk_reg_marks (s : ChunkStrategy) (reg : Registry) (fs : Fs)
    (data : Bytes) (k : Nat) (hk : k < s.total_chunks) :
    regMarked (s.save_chunk reg fs data k).reg s.file_id s.total_chunks k := by
  rw [save_chunk_eq_of_lt s reg fs data k hk]
  have hlen := fetch_length reg s.file_id s.total_chunks
  refine ⟨_, lookupA_insertA_self _ _ _, by rw [List.length_set]; exact hlen, ?_⟩
  exact List.getElem?_set_self (by omega)

/-- Any `save_chunk` call (any index, any payload) preserves a marked bit
of a correctly-sized entry. -/
theorem save_chunk_reg_preserves (s : ChunkStrategy) (reg : Registry) (fs : Fs)
    (data : Bytes) (k j : Nat)
    (h : regMarked reg s.file_id s.total_chunks j) :
    regMarked (s.save_chunk reg fs data k).reg s.file_id s.total_chunks j := by
  obtain ⟨v, hv, hlen, hj⟩ := h
  have hfetch : (if ((lookupA reg s.file_id).getD
        (List.replicate s.total_chunks false)).length ≠ s.total_chunks
      then List.replicate s.total_chunks false
      else (lookupA reg s.file_id).getD
        (List.replicate s.total_chunks false)) = v := by
    rw [hv]
    simp only [Option.getD_some]
    rw [if_neg (by simp [hlen])]
  have hjlt : j < v.length := (List.getElem?_eq_some_iff.mp hj).1
  by_cases hk : k < s.total_chunks
  · rw [save_chunk_eq_of_lt s reg fs data k hk]
    rw [hfetch]
    refine ⟨v.set k true, lookupA_insertA_self _ _ _, by simp [hlen], ?_⟩
    by_cases hkj : k = j
    · subst hkj
      exact List.getElem?_set_self (by omega)
    · rw [List.getElem?_set_ne hkj]
      exact hj
  · rw [save_chunk_eq_of_ge s reg fs data k (by omega)]
    rw [hfetch]
    exact ⟨v, lookupA_insertA_self _ _ _, hlen, hj⟩

/-- `saveAll` preserves a marked bit of a correctly-sized entry. -/
theorem saveAll_reg_preserves (s : ChunkStrategy) (p : Nat → Bytes) (j : Nat) :
    ∀ (order : List Nat) (reg : Registry) (fs : Fs),
      regMarked reg s.file_id s.total_chunks j →
      regMarked (saveAll s p order reg fs).1 s.file_id s.total_chunks j := by
  intro order
  induction order with
  | nil => intro reg fs h; exact h
  | cons i rest ih =>
      intro reg fs h
      simp only [saveAll]
      exact ih _ _ (save_chunk_reg_preserves s reg fs (p i) i j h)

/-- After `saveAll`, every in-bounds index that occurs in the order is
marked. -/
theorem saveAll_reg_marks (s : ChunkStrategy) (p : Nat → Bytes) (j : Nat) :
    ∀ (order : List Nat) (reg : Registry) (fs : Fs),
      j ∈ order → j < s.total_chunks →
      regMarked (saveAll s p order reg fs).1 s.file_id s.total_chunks j := by
  intro order
  induction order with
  | nil => intro reg fs h _; exact absurd h (List.not_mem_nil j)
  | cons i rest ih =>
      intro reg fs hmem hlt
      simp only [saveAll]
      rcases List.mem_cons.mp hmem with h | h
      · subst h
        exact saveAll_reg_preserves s p j rest _ _
          (save_chunk_reg_marks s reg fs (p j) j hlt)
      · exact ih _ _ h hlt

/-- `saveAll` does not touch paths outside the saved chunk paths. -/
theorem saveAll_fs_other (s : ChunkStrategy) (p : Nat → Bytes) (q : String) :
    ∀ (order : List Nat) (reg : Registry) (fs : Fs),
      (∀ i ∈ order, s.get_chunk_path s.file_id i ≠ q) →
      lookupA (saveAll s p order reg fs).2 q = lookupA fs q := by
  intro order
  induction order with
  | nil => intro reg fs _; rfl
  | cons i rest ih =>
      intro reg fs h
      simp only [saveAll]
      rw [ih _ _ (fun i2 hi2 => h i2 (List.mem_cons_of_mem _ hi2))]
      rw [save_chunk_fs_eq]
      exact lookupA_insertA_ne fs _ q (p i)
        (Ne.symm (h i (List.mem_cons_self i rest)))

/-- After `saveAll`, a chunk path whose index occurs in the order and is
not aliased by any other saved index holds that index's payload. -/
theorem saveAll_fs_saved (s : ChunkStrategy) (p : Nat → Bytes) (j : Nat) :
    ∀ (order : List Nat) (reg : Registry) (fs : Fs),
      j ∈ order →
      (∀ i ∈ order, s.get_chunk_path s.file_id i = s.get_chunk_path s.file_id j →
        i = j) →
      lookupA (saveAll s p order reg fs).2 (s.get_chunk_path s.file_id j) =
        some (p j) := by
  intro order
  induction order with
  | nil => intro reg fs h _; exact absurd h (List.not_mem_nil j)
  | cons i rest ih =>
      intro reg fs hmem hinj
      simp only [saveAll]
      by_cases hjr : j ∈ rest
      · exact ih _ _ hjr (fun i2 h2 => hinj i2 (List.mem_cons_of_mem _ h2))
      · have hji : j = i := by
          rcases List.mem_cons.mp hmem with h | h
          · exact h
          · exact absurd h hjr
        subst hji
        rw [saveAll_fs_other s p _ rest _ _ ?hother]
        · rw [save_chunk_fs_eq]
          exact lookupA_insertA_self _ _ _
        case hother =>
          intro i2 hi2 heq
          exact hjr (hinj i2 (List.mem_cons_of_mem _ hi2) heq ▸ hi2)

/-- All saves of a sequence of in-bounds indices return `Ok(())`. -/
theorem saveAll_ok (s : ChunkStrategy) (p : Nat → Bytes) :
    ∀ (order : List Nat) (reg : Registry) (fs : Fs),
      (∀ i ∈ order, i < s.total_chunks) →
      saveAllOk s p order reg fs := by
  intro order
  induction order with
  | nil => intro reg fs _; trivial
  | cons i rest ih =>
      intro reg fs h
      exact ⟨save_chunk_ok_of_lt s reg fs (p i) i (h i (List.mem_cons_self i rest)),
        ih _ _ (fun i2 h2 => h i2 (List.mem_cons_of_mem _ h2))⟩

/-- `List.range' st n` (step 1) has no duplicates. -/
theorem range'_nodup : ∀ (n st : Nat), (List.range' st n).Nodup := by
  intro n
  induction n with
  | zero => intro st; simp
  | succ m ih =>
      intro st
      rw [List.range'_succ]
      refine List.nodup_cons.mpr ⟨?_, ih (st + 1)⟩
      intro hmem
      rcases List.mem_range'.mp hmem with ⟨i, hi, he⟩
      omega

/-- A length-`total` vector with every index below `total` set is all-true. -/
theorem all_true_of_marked (v : List Bool) (total : Nat) (hlen : v.length = total)
    (h : ∀ j : Nat, j < total → v[j]? = some true) :
    v.all (fun status => status) = true := by
  rw [List.all_eq_true]
  intro x hx
  rcases List.mem_iff_getElem?.mp hx with ⟨n, hn⟩
  have hnlt : n < v.length := (List.getElem?_eq_some_iff.mp hn).1
  have h2 := h n (by omega)
  rw [h2] at hn
  simpa using (Option.some.inj hn).symm

/-- The merge loop succeeds and appends exactly the payloads in order when
every listed chunk path holds its payload, paths of distinct listed
indices are distinct, and the list has no duplicates. -/
theorem mergeLoop_ok_of_present (s : ChunkStrategy) (d : String → Bool)
    (p : Nat → Bytes) :
    ∀ (idxs : List Nat) (fs : Fs) (acc : Bytes),
      (∀ i ∈ idxs, lookupA fs (s.get_chunk_path s.file_id i) = some (p i)) →
      (∀ i ∈ idxs, ∀ j ∈ idxs,
        s.get_chunk_path s.file_id i = s.get_chunk_path s.file_id j → i = j) →
      idxs.Nodup →
      (mergeLoop s d idxs fs acc).res = Except.ok () ∧
      (mergeLoop s d idxs fs acc).acc = acc ++ idxs.flatMap p := by
  intro idxs
  induction idxs with
  | nil =>
      intro fs acc _ _ _
      exact ⟨rfl, by simp [mergeLoop]⟩
  | cons i rest ih =>
      intro fs acc hpres hinj hnd
      have hread : async_read_from_file fs (s.get_chunk_path s.file_id i) =
          some (p i) := hpres i (List.mem_cons_self i rest)
      rw [mergeLoop_cons_some s d i rest fs acc (p i) hread]
      have hni : i ∉ rest := (List.nodup_cons.mp hnd).1
      have hpres2 : ∀ i2 ∈ rest,
          lookupA (if d (s.get_chunk_path s.file_id i) then
              eraseA fs (s.get_chunk_path s.file_id i) else fs)
            (s.get_chunk_path s.file_id i2) = some (p i2) := by
        intro i2 h2
        have hne : s.get_chunk_path s.file_id i2 ≠ s.get_chunk_path s.file_id i := by
          intro he
          have h3 : i2 = i := hinj i2 (List.mem_cons_of_mem _ h2) i
            (List.mem_cons_self i rest) he
          exact hni (h3 ▸ h2)
        split
        · rw [lookupA_eraseA_ne fs _ _ hne]
          exact hpres i2 (List.mem_cons_of_mem _ h2)
        · exact hpres i2 (List.mem_cons_of_mem _ h2)
      obtain ⟨h1, h2⟩ := ih _ _ hpres2
        (fun a ha b hb => hinj a (List.mem_cons_of_mem _ ha) b
          (List.mem_cons_of_mem _ hb))
        (List.nodup_cons.mp hnd).2
      refine ⟨h1, ?_⟩
      rw [h2]
      simp [List.flatMap_cons]

/-- C1 (amended): if the resolved chunk paths of the session's indices are
pairwise distinct and all differ from the output path, and no file exists
yet at the output path, then saving every index `0 .. total_chunks - 1`
(in any order, each save succeeding) and then merging succeeds, and the
output file holds exactly the concatenation of the payloads of indices
`start_chunk_index .. total_chunks - 1` in ascending index order. -/
theorem saveAll_then_merge (s : ChunkStrategy) (reg : Registry) (fs : Fs)
    (d : String → Bool) (p : Nat → Bytes) (order : List Nat)
    (hstart : s.start_chunk_index < s.total_chunks)
    (hmem : ∀ i ∈ order, i < s.total_chunks)
    (hcover : ∀ i : Nat, i < s.total_chunks → i ∈ order)
    (hinj : ∀ i : Nat, i < s.total_chunks → ∀ j : Nat, j < s.total_chunks →
      s.get_chunk_path s.file_id i = s.get_chunk_path s.file_id j → i = j)
    (hout : ∀ i : Nat, i < s.total_chunks →
      s.get_chunk_path s.file_id i ≠ joinPath s.upload_dir s.file_name)
    (hfree : lookupA fs (joinPath s.upload_dir s.file_name) = none) :
    saveAllOk s p order reg fs ∧
    (s.merge_chunks (saveAll s p order reg fs).1
      (saveAll s p order reg fs).2 d).result = Except.ok () ∧
    lookupA (s.merge_chunks (saveAll s p order reg fs).1
        (saveAll s p order reg fs).2 d).fs
      (joinPath s.upload_dir s.file_name) =
      some ((List.range' s.start_chunk_index
        (s.total_chunks - s.start_chunk_index)).flatMap p) := by
  refine ⟨saveAll_ok s p order reg fs hmem, ?_⟩
  obtain ⟨v, hv, hvlen, hv0⟩ := saveAll_reg_marks s p 0 order reg fs
    (hcover 0 (by omega)) (by omega)
  have hvj : ∀ j : Nat, j < s.total_chunks → v[j]? = some true := by
    intro j hj
    obtain ⟨v2, hv2, _, hj2⟩ := saveAll_reg_marks s p j order reg fs
      (hcover j hj) hj
    rw [hv] at hv2
    exact (Option.some.inj hv2) ▸ hj2
  have hall : v.all (fun status => status) = true :=
    all_true_of_marked v s.total_chunks hvlen hvj
  have hgetD : ((lookupA (saveAll s p order reg fs).1 s.file_id).getD
      (List.replicate s.total_chunks false)) = v := by
    rw [hv]
    rfl
  have hfs_out : lookupA (saveAll s p order reg fs).2
      (joinPath s.upload_dir s.file_name) = none := by
    rw [saveAll_fs_other s p _ order reg fs (fun i hi => hout i (hmem i hi))]
    exact hfree
  have hfs_chunk : ∀ i : Nat, i < s.total_chunks →
      lookupA (saveAll s p order reg fs).2 (s.get_chunk_path s.file_id i) =
        some (p i) := by
    intro i hi
    exact saveAll_fs_saved s p i order reg fs (hcover i hi)
      (fun i2 h2 he => hinj i2 (hmem i2 h2) i hi he)
  have hpres : ∀ i ∈ List.range' s.start_chunk_index
      (s.total_chunks - s.start_chunk_index),
      lookupA (insertA (saveAll s p order reg fs).2
          (joinPath s.upload_dir s.file_name) [])
        (s.get_chunk_path s.file_id i) = some (p i) := by
    intro i hi
    have hib : i < s.total_chunks := by
      rcases List.mem_range'.mp hi with ⟨t, ht, he⟩
      omega
    rw [lookupA_insertA_ne _ _ _ _ (hout i hib)]
    exact hfs_chunk i hib
  have hinj2 : ∀ i ∈ List.range' s.start_chunk_index
      (s.total_chunks - s.start_chunk_index),
      ∀ j ∈ List.range' s.start_chunk_index
        (s.total_chunks - s.start_chunk_index),
      s.get_chunk_path s.file_id i = s.get_chunk_path s.file_id j → i = j := by
    intro i hi j hj he
    have hib : i < s.total_chunks := by
      rcases List.mem_range'.mp hi with ⟨t, ht, h2⟩
      omega
    have hjb : j < s.total_chunks := by
      rcases List.mem_range'.mp hj with ⟨t, ht, h2⟩
      omega
    exact hinj i hib j hjb he
  obtain ⟨hres, hacc⟩ := mergeLoop_ok_of_present s d p
    (List.range' s.start_chunk_index (s.total_chunks - s.start_chunk_index))
    (insertA (saveAll s p order reg fs).2 (joinPath s.upload_dir s.file_name) [])
    [] hpres hinj2 (range'_nodup _ _)
  simp only [ChunkStrategy.merge_chunks, hgetD, hall, if_true, hfs_out,
    Option.isSome_none, Bool.false_eq_true, if_false]
  refine ⟨hres, ?_⟩
  rw [lookupA_insertA_self, hacc]
  simp

/-- Witness for C1's amended theorem: `total_chunks = 3`,
`start_chunk_index = 1`, chunks saved in the order `[1, 2, 0]` with
payload `[i]` for index `i`; the merged output is `[1] ++ [2]`. -/
theorem saveAll_then_merge_w :
    saveAllOk ⟨1, "d", "f", "out", 3, namingEx⟩ (fun i => [i]) [1, 2, 0] [] [] ∧
    (ChunkStrategy.merge_chunks ⟨1, "d", "f", "out", 3, namingEx⟩
      (saveAll ⟨1, "d", "f", "out", 3, namingEx⟩ (fun i => [i]) [1, 2, 0] [] []).1
      (saveAll ⟨1, "d", "f", "out", 3, namingEx⟩ (fun i => [i]) [1, 2, 0] [] []).2
      (fun _ => true)).result = Except.ok () ∧
    lookupA (ChunkStrategy.merge_chunks ⟨1, "d", "f", "out", 3, namingEx⟩
        (saveAll ⟨1, "d", "f", "out", 3, namingEx⟩ (fun i => [i]) [1, 2, 0] [] []).1
        (saveAll ⟨1, "d", "f", "out", 3, namingEx⟩ (fun i => [i]) [1, 2, 0] [] []).2
        (fun _ => true)).fs (joinPath "d" "out") =
      some ((List.range' 1 (3 - 1)).flatMap (fun i => [i])) :=
  saveAll_then_merge ⟨1, "d", "f", "out", 3, namingEx⟩ [] [] (fun _ => true)
    (fun i => [i]) [1, 2, 0] (by decide) (by decide) (by decide) (by decide)
    (by decide) rfl

/-- C1 (counterexample to the claim as stated): with the constant naming
function `fun _ _ => "c"` all chunks of the session resolve to the same
path.  Saving indices 0 and 1 of `total_chunks = 2` both succeed, yet the
subsequent merge does not succeed (reading chunk 1 fails with `ReadChunk`
because iteration 0 deleted the shared fragment file), so merging after
saving all indices is not guaranteed to succeed, let alone to produce the
concatenation of the payloads. -/
theorem saveAll_then_merge_cex :
    (ChunkStrategy.save_chunk ⟨0, "d", "f", "out", 2, fun _ _ => "c"⟩
        [] [] [0] 0).result = Except.ok () ∧
    (ChunkStrategy.save_chunk ⟨0, "d", "f", "out", 2, fun _ _ => "c"⟩
      (ChunkStrategy.save_chunk ⟨0, "d", "f", "out", 2, fun _ _ => "c"⟩
        [] [] [0] 0).reg
      (ChunkStrategy.save_chunk ⟨0, "d", "f", "out", 2, fun _ _ => "c"⟩
        [] [] [0] 0).fs
      [1] 1).result = Except.ok () ∧
    (ChunkStrategy.merge_chunks ⟨0, "d", "f", "out", 2, fun _ _ => "c"⟩
      (ChunkStrategy.save_chunk ⟨0, "d", "f", "out", 2, fun _ _ => "c"⟩
        (ChunkStrategy.save_chunk ⟨0, "d", "f", "out", 2, fun _ _ => "c"⟩
          [] [] [0] 0).reg
        (ChunkStrategy.save_chunk ⟨0, "d", "f", "out", 2, fun _ _ => "c"⟩
          [] [] [0] 0).fs
        [1] 1).reg
      (ChunkStrategy.save_chunk ⟨0, "d", "f", "out", 2, fun _ _ => "c"⟩
        (ChunkStrategy.save_chunk ⟨0, "d", "f", "out", 2, fun _ _ => "c"⟩
          [] [] [0] 0).reg
        (ChunkStrategy.save_chunk ⟨0, "d", "f", "out", 2, fun _ _ => "c"⟩
          [] [] [0] 0).fs
        [1] 1).fs
      (fun _ => true)).result ≠ Except.ok () := by
  decide

/-- C6: the source opens the output path with `create(true).write(true)`
and does NOT set `.truncate(true)`, so a pre-existing output file is not
discarded: merging the single complete chunk `[65]` over a pre-existing
output file `[66, 66]` succeeds, but the output path then holds
`[65, 66]` — the written byte followed by the surviving old tail — and
not `[65]` as truncate-on-write semantics would require. -/
theorem merge_output_not_truncated :
    (ChunkStrategy.merge_chunks ⟨0, "d", "f", "out", 1, namingEx⟩
        [("f", [true])] [("d/out", [66, 66]), ("d/chunk_0", [65])]
        (fun _ => false)).result = Except.ok () ∧
    lookupA (ChunkStrategy.merge_chunks ⟨0, "d", "f", "out", 1, namingEx⟩
        [("f", [true])] [("d/out", [66, 66]), ("d/chunk_0", [65])]
        (fun _ => false)).fs "d/out" = some [65, 66] ∧
    lookupA (ChunkStrategy.merge_chunks ⟨0, "d", "f", "out", 1, namingEx⟩
        [("f", [true])] [("d/out", [66, 66]), ("d/chunk_0", [65])]
        (fun _ => false)).fs "d/out" ≠ some [65] := by
  decide
